import Mathlib

/-!
Verification of the `bidir-map` bidirectional map library.

The development shallowly embeds `src/lib.rs`: `BidirMap<Kv1, Kv2>` is a
structure holding the backing `Vec<(Kv1, Kv2)>` as a `List (A × B)`; each
method is translated to a Lean function over that structure.  The Rust
`Iterator::position` and `Vec::swap_remove` are modelled by the standalone
list functions `position` and `swap_remove` below.  Panicking indexed
access (`Index<ByFirst>` / `Index<BySecond>`) is modelled in `Except
String`, the error carrying the exact panic message.
-/

set_option autoImplicit false
set_option linter.unusedSectionVars false

universe u v

/-- `Iterator::position`: the index of the first element satisfying `p`. -/
def position {α : Type u} (p : α → Bool) : List α → Option Nat
  | [] => none
  | x :: xs => if p x then some 0 else (position p xs).map (· + 1)

/-- `Vec::swap_remove(i)` on the backing list: overwrite slot `i` with the
last element, then truncate by one.  (On the empty list — never reached by
the library — it returns the empty list.) -/
def swap_remove {α : Type u} (l : List α) (i : Nat) : List α :=
  match l.getLast? with
  | none => []
  | some last => (l.set i last).dropLast

/-- `BidirMap<Kv1, Kv2>`: a single ordered sequence of pairs (`cont: Vec<(Kv1, Kv2)>`). -/
structure BidirMap (A : Type u) (B : Type v) where
  cont : List (A × B)
deriving DecidableEq

namespace BidirMap

variable {A : Type u} {B : Type v} [DecidableEq A] [DecidableEq B]

/-- `BidirMap::new()`. -/
def new : BidirMap A B := ⟨[]⟩

/-- `BidirMap::len()`. -/
def len (m : BidirMap A B) : Nat := m.cont.length

/-- `BidirMap::is_empty()`. -/
def is_empty (m : BidirMap A B) : Bool := m.cont.isEmpty

/-- `BidirMap::contains_first_key(key)`: `self.cont.iter().any(|kvs| *key == kvs.0)`. -/
def contains_first_key (m : BidirMap A B) (key : A) : Bool :=
  m.cont.any (fun kvs => key == kvs.1)

/-- `BidirMap::contains_second_key(key)`: `self.cont.iter().any(|kvs| *key == kvs.1)`. -/
def contains_second_key (m : BidirMap A B) (key : B) : Bool :=
  m.cont.any (fun kvs => key == kvs.2)

/-- `BidirMap::get_by_first(key)`: `self.cont.iter().find(|kvs| *key == kvs.0).map(|kvs| &kvs.1)`. -/
def get_by_first (m : BidirMap A B) (key : A) : Option B :=
  (m.cont.find? (fun kvs => key == kvs.1)).map Prod.snd

/-- `BidirMap::get_by_second(key)`: `self.cont.iter().find(|kvs| *key == kvs.1).map(|kvs| &kvs.0)`. -/
def get_by_second (m : BidirMap A B) (key : B) : Option A :=
  (m.cont.find? (fun kvs => key == kvs.2)).map Prod.fst

/-- `BidirMap::remove_by_first(key)`:
`self.cont.iter().position(|kvs| *key == kvs.0).map(|idx| self.cont.swap_remove(idx))`.
Returns the removed pair (if any) together with the mutated map. -/
def remove_by_first (m : BidirMap A B) (key : A) : Option (A × B) × BidirMap A B :=
  match position (fun kvs => key == kvs.1) m.cont with
  | none => (none, m)
  | some idx => (m.cont[idx]?, ⟨swap_remove m.cont idx⟩)

/-- `BidirMap::remove_by_second(key)`: symmetric to `remove_by_first`. -/
def remove_by_second (m : BidirMap A B) (key : B) : Option (A × B) × BidirMap A B :=
  match position (fun kvs => key == kvs.2) m.cont with
  | none => (none, m)
  | some idx => (m.cont[idx]?, ⟨swap_remove m.cont idx⟩)

/-- The `retval` computation at the top of `BidirMap::insert`: displace the
first-colliding entry if any, else the second-colliding entry if any, else
nothing. -/
def insert_aux (m : BidirMap A B) (kv1 : A) (kv2 : B) : Option (A × B) × BidirMap A B :=
  if m.contains_first_key kv1 then m.remove_by_first kv1
  else if m.contains_second_key kv2 then m.remove_by_second kv2
  else (none, m)

/-- `BidirMap::insert(kv1, kv2)`: compute `retval` as in `insert_aux`, then
`self.cont.push((kv1, kv2))`, and return `retval`. -/
def insert (m : BidirMap A B) (kv1 : A) (kv2 : B) : Option (A × B) × BidirMap A B :=
  ((m.insert_aux kv1 kv2).1, ⟨(m.insert_aux kv1 kv2).2.cont ++ [(kv1, kv2)]⟩)

/-- `BidirMap::iter()`: the entries in current sequence order. -/
def iter (m : BidirMap A B) : List (A × B) := m.cont

/-- `FromIterator for BidirMap`: `BidirMap { cont: Vec::from_iter(iter) }` —
a direct bulk load, with no collision resolution. -/
def from_iter (l : List (A × B)) : BidirMap A B := ⟨l⟩

/-- A map built by `insert`ing the given pairs, in order, into an empty map. -/
def insert_all (l : List (A × B)) : BidirMap A B :=
  l.foldl (fun m p => (m.insert p.1 p.2).2) new

end BidirMap

/-- The `ByFirst` wrapper (`pub struct ByFirst(pub Q)`, holding the query by reference). -/
structure ByFirst (Q : Type u) where
  q : Q

/-- The `BySecond` wrapper (`pub struct BySecond(pub Q)`, holding the query by reference). -/
structure BySecond (Q : Type u) where
  q : Q

/-- `Option::expect(msg)`: a panic is modelled as `Except.error msg`. -/
def expect {α : Type u} (o : Option α) (msg : String) : Except String α :=
  match o with
  | some v => Except.ok v
  | none => Except.error msg

namespace BidirMap

variable {A : Type u} {B : Type v} [DecidableEq A] [DecidableEq B]

/-- `impl Index<ByFirst> for BidirMap`:
`self.get_by_first(&key.0).expect("no entry found for first key/value")`. -/
def index_by_first (m : BidirMap A B) (key : ByFirst A) : Except String B :=
  expect (m.get_by_first key.q) "no entry found for first key/value"

/-- `impl Index<&ByFirst> for BidirMap`: the by-reference impl, with the same body. -/
def index_by_first_ref (m : BidirMap A B) (key : ByFirst A) : Except String B :=
  expect (m.get_by_first key.q) "no entry found for first key/value"

/-- `impl Index<BySecond> for BidirMap`:
`self.get_by_second(&key.0).expect("no entry found for second key/value")`. -/
def index_by_second (m : BidirMap A B) (key : BySecond B) : Except String A :=
  expect (m.get_by_second key.q) "no entry found for second key/value"

/-- `impl Index<&BySecond> for BidirMap`: the by-reference impl, with the same body. -/
def index_by_second_ref (m : BidirMap A B) (key : BySecond B) : Except String A :=
  expect (m.get_by_second key.q) "no entry found for second key/value"

end BidirMap

/-- A client operation on a `BidirMap`, for stating bookkeeping properties of
whole operation sequences. -/
inductive Op (A : Type u) (B : Type v) where
  | insert (kv1 : A) (kv2 : B)
  | remove_by_first (key : A)
  | remove_by_second (key : B)

namespace Op

variable {A : Type u} {B : Type v} [DecidableEq A] [DecidableEq B]

/-- Run one operation, returning the displaced/removed pair (if any) and the new map. -/
def apply_op (m : BidirMap A B) : Op A B → Option (A × B) × BidirMap A B
  | .insert a b => m.insert a b
  | .remove_by_first a => m.remove_by_first a
  | .remove_by_second b => m.remove_by_second b

/-- Whether an operation is an `insert`. -/
def is_insert : Op A B → Bool
  | .insert _ _ => true
  | .remove_by_first _ => false
  | .remove_by_second _ => false

/-- Run a sequence of operations from `m`.  Returns the final map, the number
of inserts performed, and the number of removals that returned a pair —
explicit successful removals together with insert-collision displacements. -/
def run_ops (m : BidirMap A B) : List (Op A B) → BidirMap A B × Nat × Nat
  | [] => (m, 0, 0)
  | op :: rest =>
      let r := apply_op m op
      let t := run_ops r.2 rest
      (t.1, t.2.1 + (if is_insert op then 1 else 0), t.2.2 + (if r.1.isSome then 1 else 0))

end Op

/-! ### List-level lemmas about `position` and `swap_remove` -/

section ListLemmas

variable {α : Type u}

theorem position_eq_none_iff (p : α → Bool) (l : List α) :
    position p l = none ↔ ∀ x ∈ l, p x = false := by
  induction l with
  | nil => simp [position]
  | cons x xs ih =>
    cases hx : p x <;> simp [position, hx, ih]

theorem position_spec (p : α → Bool) (l : List α) (i : Nat) (h : position p l = some i) :
    ∃ e, l[i]? = some e ∧ p e = true ∧
      ∀ j, j < i → ∀ e', l[j]? = some e' → p e' = false := by
  induction l generalizing i with
  | nil => simp [position] at h
  | cons x xs ih =>
    cases hx : p x with
    | true =>
      simp [position, hx] at h
      subst h
      exact ⟨x, by simp, hx, by omega⟩
    | false =>
      simp [position, hx, Option.map_eq_some'] at h
      obtain ⟨i', hi', rfl⟩ := h
      obtain ⟨e, he, hpe, hmin⟩ := ih i' hi'
      refine ⟨e, by simpa using he, hpe, ?_⟩
      intro j hj e' he'
      cases j with
      | zero =>
        simp at he'
        subst he'
        exact hx
      | succ j' =>
        exact hmin j' (by omega) e' (by simpa using he')

theorem split_of_getElem? (l : List α) (i : Nat) (e : α) (he : l[i]? = some e) :
    ∃ l₁ l₂, l = l₁ ++ e :: l₂ ∧ l₁.length = i := by
  induction l generalizing i with
  | nil => simp at he
  | cons x xs ih =>
    cases i with
    | zero =>
      simp at he
      exact ⟨[], xs, by simp [he], rfl⟩
    | succ n =>
      simp at he
      obtain ⟨l₁, l₂, hsplit, hlen⟩ := ih n he
      exact ⟨x :: l₁, l₂, by simp [hsplit], by simp [hlen]⟩

theorem set_append_cons (l₁ : List α) (e a : α) (l₂ : List α) :
    (l₁ ++ e :: l₂).set l₁.length a = l₁ ++ a :: l₂ := by
  induction l₁ with
  | nil => rfl
  | cons x xs ih => simp [ih]

theorem swap_remove_some (l : List α) (i : Nat) (last : α) (h : l.getLast? = some last) :
    swap_remove l i = (l.set i last).dropLast := by
  unfold swap_remove
  rw [h]

/-- The key fact about swap-removal: the removed element, re-consed onto the
result, is a permutation of the original list. -/
theorem swap_remove_cons_perm (l : List α) (i : Nat) (e : α) (he : l[i]? = some e) :
    List.Perm (e :: swap_remove l i) l := by
  obtain ⟨l₁, l₂, rfl, hlen⟩ := split_of_getElem? l i e he
  rcases List.eq_nil_or_concat l₂ with rfl | ⟨l₂', last, rfl⟩
  · have hg : (l₁ ++ e :: ([] : List α)).getLast? = some e := List.getLast?_concat l₁
    rw [swap_remove_some _ i e hg, ← hlen, set_append_cons]
    rw [show l₁ ++ e :: ([] : List α) = l₁ ++ [e] from rfl, List.dropLast_concat]
    exact (List.perm_append_singleton e l₁).symm
  · simp only [List.concat_eq_append] at *
    have hre : l₁ ++ e :: (l₂' ++ [last]) = (l₁ ++ e :: l₂') ++ [last] := by
      simp
    have hg : (l₁ ++ e :: (l₂' ++ [last])).getLast? = some last := by
      rw [hre]; exact List.getLast?_concat _
    rw [swap_remove_some _ i last hg, ← hlen, set_append_cons]
    have hre2 : l₁ ++ last :: (l₂' ++ [last]) = (l₁ ++ last :: l₂') ++ [last] := by
      simp
    rw [hre2, List.dropLast_concat]
    have h2 : List.Perm (l₁ ++ last :: l₂') (l₁ ++ (l₂' ++ [last])) :=
      ((List.perm_append_singleton last l₂').symm).append_left l₁
    exact (h2.cons e).trans (@List.perm_middle _ e l₁ (l₂' ++ [last])).symm

theorem swap_remove_length (l : List α) (i : Nat) (e : α) (he : l[i]? = some e) :
    (swap_remove l i).length + 1 = l.length := by
  simpa using (swap_remove_cons_perm l i e he).length_eq

theorem swap_remove_countP (p : α → Bool) (l : List α) (i : Nat) (e : α) (he : l[i]? = some e) :
    (swap_remove l i).countP p + (if p e then 1 else 0) = l.countP p := by
  have h := (swap_remove_cons_perm l i e he).countP_eq p
  rw [List.countP_cons] at h
  omega

end ListLemmas

/-! ### Characterizations of the `BidirMap` operations -/

namespace BidirMap

variable {A : Type u} {B : Type v} [DecidableEq A] [DecidableEq B]

theorem contains_first_key_iff (m : BidirMap A B) (k : A) :
    m.contains_first_key k = true ↔ ∃ e ∈ m.cont, e.1 = k := by
  simp only [contains_first_key, List.any_eq_true, beq_iff_eq]
  constructor
  · rintro ⟨e, he, h⟩; exact ⟨e, he, h.symm⟩
  · rintro ⟨e, he, h⟩; exact ⟨e, he, h.symm⟩

theorem contains_second_key_iff (m : BidirMap A B) (k : B) :
    m.contains_second_key k = true ↔ ∃ e ∈ m.cont, e.2 = k := by
  simp only [contains_second_key, List.any_eq_true, beq_iff_eq]
  constructor
  · rintro ⟨e, he, h⟩; exact ⟨e, he, h.symm⟩
  · rintro ⟨e, he, h⟩; exact ⟨e, he, h.symm⟩

theorem remove_by_first_not_found {m : BidirMap A B} {k : A}
    (h : m.contains_first_key k = false) : m.remove_by_first k = (none, m) := by
  have hp : position (fun kvs => k == kvs.1) m.cont = none := by
    rw [position_eq_none_iff]
    intro x hx
    have := List.any_eq_false.mp h x hx
    simpa using this
  simp [remove_by_first, hp]

theorem remove_by_second_not_found {m : BidirMap A B} {k : B}
    (h : m.contains_second_key k = false) : m.remove_by_second k = (none, m) := by
  have hp : position (fun kvs => k == kvs.2) m.cont = none := by
    rw [position_eq_none_iff]
    intro x hx
    have := List.any_eq_false.mp h x hx
    simpa using this
  simp [remove_by_second, hp]

theorem remove_by_first_found {m : BidirMap A B} {k : A}
    (h : m.contains_first_key k = true) :
    ∃ i e, m.cont[i]? = some e ∧ e.1 = k ∧
      (∀ j, j < i → ∀ e', m.cont[j]? = some e' → e'.1 ≠ k) ∧
      m.cont.getLast? = some (m.cont.getLast?.getD e) ∧
      m.remove_by_first k = (some e, ⟨swap_remove m.cont i⟩) := by
  cases hp : position (fun kvs => k == kvs.1) m.cont with
  | none =>
    rw [position_eq_none_iff] at hp
    rw [contains_first_key, List.any_eq_true] at h
    obtain ⟨x, hx, hpx⟩ := h
    exact absurd (hp x hx) (by simp [hpx])
  | some i =>
    obtain ⟨e, he, hpe, hmin⟩ := position_spec _ _ _ hp
    have he1 : e.1 = k := by
      have := beq_iff_eq.mp hpe
      exact this.symm
    have hlast : ∃ last, m.cont.getLast? = some last := by
      rcases List.eq_nil_or_concat m.cont with hnil | ⟨l', a, hcat⟩
      · rw [hnil] at he; simp at he
      · exact ⟨a, by rw [hcat, List.concat_eq_append]; exact List.getLast?_concat _⟩
    obtain ⟨last, hl⟩ := hlast
    refine ⟨i, e, he, he1, ?_, by simp [hl], ?_⟩
    · intro j hj e' he' hne
      have := hmin j hj e' he'
      simp [hne] at this
    · simp [remove_by_first, hp, he]

theorem remove_by_second_found {m : BidirMap A B} {k : B}
    (h : m.contains_second_key k = true) :
    ∃ i e, m.cont[i]? = some e ∧ e.2 = k ∧
      (∀ j, j < i → ∀ e', m.cont[j]? = some e' → e'.2 ≠ k) ∧
      m.cont.getLast? = some (m.cont.getLast?.getD e) ∧
      m.remove_by_second k = (some e, ⟨swap_remove m.cont i⟩) := by
  cases hp : position (fun kvs => k == kvs.2) m.cont with
  | none =>
    rw [position_eq_none_iff] at hp
    rw [contains_second_key, List.any_eq_true] at h
    obtain ⟨x, hx, hpx⟩ := h
    exact absurd (hp x hx) (by simp [hpx])
  | some i =>
    obtain ⟨e, he, hpe, hmin⟩ := position_spec _ _ _ hp
    have he2 : e.2 = k := by
      have := beq_iff_eq.mp hpe
      exact this.symm
    have hlast : ∃ last, m.cont.getLast? = some last := by
      rcases List.eq_nil_or_concat m.cont with hnil | ⟨l', a, hcat⟩
      · rw [hnil] at he; simp at he
      · exact ⟨a, by rw [hcat, List.concat_eq_append]; exact List.getLast?_concat _⟩
    obtain ⟨last, hl⟩ := hlast
    refine ⟨i, e, he, he2, ?_, by simp [hl], ?_⟩
    · intro j hj e' he' hne
      have := hmin j hj e' he'
      simp [hne] at this
    · simp [remove_by_second, hp, he]

theorem remove_by_first_perm {m : BidirMap A B} {k : A}
    (h : m.contains_first_key k = true) :
    ∃ e, (m.remove_by_first k).1 = some e ∧ e ∈ m.cont ∧ e.1 = k ∧
      List.Perm (e :: (m.remove_by_first k).2.cont) m.cont := by
  obtain ⟨i, e, he, he1, _, _, heq⟩ := remove_by_first_found h
  have hperm := swap_remove_cons_perm m.cont i e he
  exact ⟨e, by rw [heq], hperm.subset (List.mem_cons_self e _), he1, by rw [heq]; exact hperm⟩

theorem remove_by_second_perm {m : BidirMap A B} {k : B}
    (h : m.contains_second_key k = true) :
    ∃ e, (m.remove_by_second k).1 = some e ∧ e ∈ m.cont ∧ e.2 = k ∧
      List.Perm (e :: (m.remove_by_second k).2.cont) m.cont := by
  obtain ⟨i, e, he, he2, _, _, heq⟩ := remove_by_second_found h
  have hperm := swap_remove_cons_perm m.cont i e he
  exact ⟨e, by rw [heq], hperm.subset (List.mem_cons_self e _), he2, by rw [heq]; exact hperm⟩

theorem remove_by_first_len (m : BidirMap A B) (k : A) :
    (m.remove_by_first k).2.len + (if (m.remove_by_first k).1.isSome then 1 else 0) = m.len := by
  cases hc : m.contains_first_key k with
  | false => rw [remove_by_first_not_found hc]; simp
  | true =>
    obtain ⟨e, hfst, _, _, hperm⟩ := remove_by_first_perm hc
    have := hperm.length_eq
    simp only [List.length_cons] at this
    simp [len, hfst, this]

theorem remove_by_second_len (m : BidirMap A B) (k : B) :
    (m.remove_by_second k).2.len + (if (m.remove_by_second k).1.isSome then 1 else 0) = m.len := by
  cases hc : m.contains_second_key k with
  | false => rw [remove_by_second_not_found hc]; simp
  | true =>
    obtain ⟨e, hfst, _, _, hperm⟩ := remove_by_second_perm hc
    have := hperm.length_eq
    simp only [List.length_cons] at this
    simp [len, hfst, this]

theorem insert_len (m : BidirMap A B) (k1 : A) (k2 : B) :
    (m.insert k1 k2).2.len + (if (m.insert k1 k2).1.isSome then 1 else 0) = m.len + 1 := by
  cases hc1 : m.contains_first_key k1 with
  | true =>
    obtain ⟨e, hfst, _, _, hperm⟩ := remove_by_first_perm hc1
    have hlen := hperm.length_eq
    simp only [List.length_cons] at hlen
    simp only [insert, insert_aux, hc1, if_true, len, List.length_append, List.length_cons,
      List.length_nil, hfst, Option.isSome_some, if_pos]
    omega
  | false =>
    cases hc2 : m.contains_second_key k2 with
    | true =>
      obtain ⟨e, hfst, _, _, hperm⟩ := remove_by_second_perm hc2
      have hlen := hperm.length_eq
      simp only [List.length_cons] at hlen
      simp only [insert, insert_aux, hc1, hc2, Bool.false_eq_true, if_false, if_true, len,
        List.length_append, List.length_cons, List.length_nil, hfst, Option.isSome_some, if_pos]
      omega
    | false =>
      simp [insert, insert_aux, hc1, hc2, len]

theorem find?_append_of_none {γ : Type u} (p : γ → Bool) (l₁ l₂ : List γ)
    (h : l₁.find? p = none) : (l₁ ++ l₂).find? p = l₂.find? p := by
  induction l₁ with
  | nil => simp
  | cons x xs ih =>
    cases hx : p x with
    | true => simp [List.find?_cons_of_pos _ hx] at h
    | false =>
      rw [List.find?_cons_of_neg _ (by simp [hx])] at h
      rw [List.cons_append, List.find?_cons_of_neg _ (by simp [hx])]
      exact ih h

theorem get_by_first_eq_none_iff (m : BidirMap A B) (k : A) :
    m.get_by_first k = none ↔ m.contains_first_key k = false := by
  simp [get_by_first, Option.map_eq_none', List.find?_eq_none, contains_first_key,
    List.any_eq_false]

theorem get_by_second_eq_none_iff (m : BidirMap A B) (k : B) :
    m.get_by_second k = none ↔ m.contains_second_key k = false := by
  simp [get_by_second, Option.map_eq_none', List.find?_eq_none, contains_second_key,
    List.any_eq_false]

theorem find_by_first_push (rest : List (A × B)) (k1 : A) (k2 : B)
    (h : ∀ e ∈ rest, e.1 ≠ k1) :
    (((rest ++ [(k1, k2)]).find? (fun kvs => k1 == kvs.1)).map Prod.snd) = some k2 := by
  have hn : rest.find? (fun kvs => k1 == kvs.1) = none := by
    rw [List.find?_eq_none]
    intro x hx
    simp only [beq_iff_eq]
    exact fun hh => (h x hx) hh.symm
  rw [find?_append_of_none _ _ _ hn, List.find?_cons_of_pos _ (by simp)]
  rfl

theorem find_by_second_push (rest : List (A × B)) (k1 : A) (k2 : B)
    (h : ∀ e ∈ rest, e.2 ≠ k2) :
    (((rest ++ [(k1, k2)]).find? (fun kvs => k2 == kvs.2)).map Prod.fst) = some k1 := by
  have hn : rest.find? (fun kvs => k2 == kvs.2) = none := by
    rw [List.find?_eq_none]
    intro x hx
    simp only [beq_iff_eq]
    exact fun hh => (h x hx) hh.symm
  rw [find?_append_of_none _ _ _ hn, List.find?_cons_of_pos _ (by simp)]
  rfl

/-- After `insert(k1, k2)`, the backing sequence is the post-displacement
sequence with `(k1, k2)` appended; if at most one prior entry collided with
the incoming pair on either side, no collider survives the displacement. -/
theorem insert_rest_clean (m : BidirMap A B) (k1 : A) (k2 : B)
    (h : m.cont.countP (fun e => e.1 == k1 || e.2 == k2) ≤ 1) :
    ∃ rest, (m.insert k1 k2).2.cont = rest ++ [(k1, k2)] ∧
      ∀ e ∈ rest, e.1 ≠ k1 ∧ e.2 ≠ k2 := by
  cases hc1 : m.contains_first_key k1 with
  | true =>
    obtain ⟨e, hfst, hmem, he1, hperm⟩ := remove_by_first_perm hc1
    refine ⟨(m.remove_by_first k1).2.cont, by simp [insert, insert_aux, hc1], ?_⟩
    have hcount := hperm.countP_eq (fun e => e.1 == k1 || e.2 == k2)
    rw [List.countP_cons] at hcount
    have hpe : (e.1 == k1 || e.2 == k2) = true := by simp [he1]
    rw [hpe, if_pos rfl] at hcount
    have h0 : (m.remove_by_first k1).2.cont.countP (fun e => e.1 == k1 || e.2 == k2) = 0 := by
      omega
    intro x hx
    have hxp := List.countP_eq_zero.mp h0 x hx
    simp only [Bool.or_eq_true, beq_iff_eq, not_or] at hxp
    exact hxp
  | false =>
    cases hc2 : m.contains_second_key k2 with
    | true =>
      obtain ⟨e, hfst, hmem, he2, hperm⟩ := remove_by_second_perm hc2
      refine ⟨(m.remove_by_second k2).2.cont, by simp [insert, insert_aux, hc1, hc2], ?_⟩
      have hcount := hperm.countP_eq (fun e => e.1 == k1 || e.2 == k2)
      rw [List.countP_cons] at hcount
      have hpe : (e.1 == k1 || e.2 == k2) = true := by simp [he2]
      rw [hpe, if_pos rfl] at hcount
      have h0 : (m.remove_by_second k2).2.cont.countP (fun e => e.1 == k1 || e.2 == k2) = 0 := by
        omega
      intro x hx
      have hxp := List.countP_eq_zero.mp h0 x hx
      simp only [Bool.or_eq_true, beq_iff_eq, not_or] at hxp
      exact hxp
    | false =>
      refine ⟨m.cont, by simp [insert, insert_aux, hc1, hc2], ?_⟩
      intro x hx
      constructor
      · intro hh
        have := List.any_eq_false.mp hc1 x hx
        simp [hh] at this
      · intro hh
        have := List.any_eq_false.mp hc2 x hx
        simp [hh] at this

/-- Insert preserves first-side uniqueness of the backing sequence. -/
theorem insert_first_unique (m : BidirMap A B) (k1 : A) (k2 : B)
    (hm : ∀ a : A, m.cont.countP (fun e => e.1 == a) ≤ 1) (a : A) :
    (m.insert k1 k2).2.cont.countP (fun e => e.1 == a) ≤ 1 := by
  have hclean : ∃ rest, (m.insert k1 k2).2.cont = rest ++ [(k1, k2)] ∧
      rest.countP (fun e => e.1 == a) + (if a = k1 then 1 else 0) ≤ 1 := by
    cases hc1 : m.contains_first_key k1 with
    | true =>
      obtain ⟨e, hfst, hmem, he1, hperm⟩ := remove_by_first_perm hc1
      refine ⟨(m.remove_by_first k1).2.cont, by simp [insert, insert_aux, hc1], ?_⟩
      have hcount := hperm.countP_eq (fun e => e.1 == a)
      rw [List.countP_cons] at hcount
      by_cases ha : a = k1
      · subst ha
        have hpe : (e.1 == a) = true := by simp [he1]
        rw [hpe, if_pos rfl] at hcount
        rw [if_pos rfl]
        have := hm a
        omega
      · rw [if_neg ha]
        have := hm a
        omega
    | false =>
      cases hc2 : m.contains_second_key k2 with
      | true =>
        obtain ⟨e, hfst, hmem, he2, hperm⟩ := remove_by_second_perm hc2
        refine ⟨(m.remove_by_second k2).2.cont, by simp [insert, insert_aux, hc1, hc2], ?_⟩
        have hcount := hperm.countP_eq (fun e => e.1 == a)
        rw [List.countP_cons] at hcount
        by_cases ha : a = k1
        · subst ha
          have h0 : m.cont.countP (fun e => e.1 == a) = 0 := by
            rw [List.countP_eq_zero]
            intro x hx
            have := List.any_eq_false.mp hc1 x hx
            simp only [beq_iff_eq] at this ⊢
            exact fun hh => this hh.symm
          rw [if_pos rfl]
          omega
        · rw [if_neg ha]
          have := hm a
          omega
      | false =>
        refine ⟨m.cont, by simp [insert, insert_aux, hc1, hc2], ?_⟩
        by_cases ha : a = k1
        · subst ha
          have h0 : m.cont.countP (fun e => e.1 == a) = 0 := by
            rw [List.countP_eq_zero]
            intro x hx
            have := List.any_eq_false.mp hc1 x hx
            simp only [beq_iff_eq] at this ⊢
            exact fun hh => this hh.symm
          rw [if_pos rfl]
          omega
        · rw [if_neg ha]
          have := hm a
          omega
  obtain ⟨rest, heq, hle⟩ := hclean
  rw [heq, List.countP_append]
  have hsingle : ([(k1, k2)] : List (A × B)).countP (fun e => e.1 == a) =
      if a = k1 then 1 else 0 := by
    by_cases ha : a = k1
    · subst ha; simp
    · have hf : (((k1, k2) : A × B).1 == a) = false := by
        rw [beq_eq_false_iff_ne]
        exact fun hh => ha hh.symm
      simp [List.countP_cons, hf, ha]
  rw [hsingle]
  exact hle

theorem insert_all_first_unique_aux (l : List (A × B)) (m : BidirMap A B)
    (hm : ∀ a : A, m.cont.countP (fun e => e.1 == a) ≤ 1) (a : A) :
    (List.foldl (fun m p => (m.insert p.1 p.2).2) m l).cont.countP (fun e => e.1 == a) ≤ 1 := by
  induction l generalizing m with
  | nil => simpa using hm a
  | cons p ps ih =>
    exact ih ((m.insert p.1 p.2).2) (fun b => insert_first_unique m p.1 p.2 hm b)

end BidirMap

theorem run_ops_invariant {A : Type u} {B : Type v} [DecidableEq A] [DecidableEq B]
    (ops : List (Op A B)) (m : BidirMap A B) :
    (Op.run_ops m ops).1.len + (Op.run_ops m ops).2.2 = m.len + (Op.run_ops m ops).2.1 := by
  induction ops generalizing m with
  | nil => simp [Op.run_ops]
  | cons op rest ih =>
    have hr : (Op.apply_op m op).2.len + (if (Op.apply_op m op).1.isSome then 1 else 0)
        = m.len + (if Op.is_insert op then 1 else 0) := by
      cases op with
      | insert a b => simpa [Op.apply_op, Op.is_insert] using BidirMap.insert_len m a b
      | remove_by_first a =>
        simpa [Op.apply_op, Op.is_insert] using BidirMap.remove_by_first_len m a
      | remove_by_second b =>
        simpa [Op.apply_op, Op.is_insert] using BidirMap.remove_by_second_len m b
    have ht := ih (Op.apply_op m op).2
    simp only [Op.run_ops]
    omega

/-! ### The claims -/

/-- Claim C1: for every map and incoming pair `(k1, k2)`, `insert` first
removes and returns (as `Some`) the displaced pair chosen by this policy —
if the `first` of some entry equals `k1` that entry is removed via the removal
primitive `remove_by_first` and returned; otherwise if the `second` of some entry
equals `k2` it is removed via `remove_by_second` and returned; otherwise
nothing is removed and `None` is returned — then in all three cases the new
pair is appended at the end, and at most one prior entry is removed. -/
theorem claim1_insert_displacement_policy {A : Type u} {B : Type v}
    [DecidableEq A] [DecidableEq B] (m : BidirMap A B) (k1 : A) (k2 : B) :
    (m.contains_first_key k1 = true ↔ ∃ e ∈ m.cont, e.1 = k1) ∧
    (m.contains_second_key k2 = true ↔ ∃ e ∈ m.cont, e.2 = k2) ∧
    (if m.contains_first_key k1 then
        m.insert k1 k2 =
          ((m.remove_by_first k1).1, ⟨(m.remove_by_first k1).2.cont ++ [(k1, k2)]⟩) ∧
        ∃ e ∈ m.cont, e.1 = k1 ∧ (m.remove_by_first k1).1 = some e
      else if m.contains_second_key k2 then
        m.insert k1 k2 =
          ((m.remove_by_second k2).1, ⟨(m.remove_by_second k2).2.cont ++ [(k1, k2)]⟩) ∧
        ∃ e ∈ m.cont, e.2 = k2 ∧ (m.remove_by_second k2).1 = some e
      else m.insert k1 k2 = (none, ⟨m.cont ++ [(k1, k2)]⟩)) ∧
    m.cont.length + 1 =
      (m.insert k1 k2).2.cont.length + (if (m.insert k1 k2).1.isSome then 1 else 0) := by
  refine ⟨BidirMap.contains_first_key_iff m k1, BidirMap.contains_second_key_iff m k2, ?_, ?_⟩
  · cases hc1 : m.contains_first_key k1 with
    | true =>
      rw [if_pos rfl]
      refine ⟨by simp [BidirMap.insert, BidirMap.insert_aux, hc1], ?_⟩
      obtain ⟨e, hfst, hmem, he1, _⟩ := BidirMap.remove_by_first_perm hc1
      exact ⟨e, hmem, he1, hfst⟩
    | false =>
      rw [if_neg Bool.false_ne_true]
      cases hc2 : m.contains_second_key k2 with
      | true =>
        rw [if_pos rfl]
        refine ⟨by simp [BidirMap.insert, BidirMap.insert_aux, hc1, hc2], ?_⟩
        obtain ⟨e, hfst, hmem, he2, _⟩ := BidirMap.remove_by_second_perm hc2
        exact ⟨e, hmem, he2, hfst⟩
      | false =>
        rw [if_neg Bool.false_ne_true]
        simp [BidirMap.insert, BidirMap.insert_aux, hc1, hc2]
  · have h := BidirMap.insert_len m k1 k2
    simp only [BidirMap.len] at h
    omega

/-- Claim C5: `remove_by_first(key)` (and symmetrically `remove_by_second`)
scans for the first entry whose matching side equals the key; if found, that
entry is removed by overwriting its slot with the last entry and truncating
by one (swap-remove) and is returned as `Some`; if no entry matches, `None`
is returned. -/
theorem claim5_remove_swap_semantics {A : Type u} {B : Type v}
    [DecidableEq A] [DecidableEq B] (m : BidirMap A B) (k1 : A) (k2 : B) :
    (if m.contains_first_key k1 then
        ∃ i e last, m.cont[i]? = some e ∧ e.1 = k1 ∧
          (∀ j, j < i → ∀ x, m.cont[j]? = some x → x.1 ≠ k1) ∧
          m.cont.getLast? = some last ∧
          m.remove_by_first k1 = (some e, ⟨(m.cont.set i last).dropLast⟩) ∧
          (m.remove_by_first k1).2.cont.length + 1 = m.cont.length
      else m.remove_by_first k1 = (none, m)) ∧
    (if m.contains_second_key k2 then
        ∃ i e last, m.cont[i]? = some e ∧ e.2 = k2 ∧
          (∀ j, j < i → ∀ x, m.cont[j]? = some x → x.2 ≠ k2) ∧
          m.cont.getLast? = some last ∧
          m.remove_by_second k2 = (some e, ⟨(m.cont.set i last).dropLast⟩) ∧
          (m.remove_by_second k2).2.cont.length + 1 = m.cont.length
      else m.remove_by_second k2 = (none, m)) := by
  constructor
  · cases hc : m.contains_first_key k1 with
    | true =>
      rw [if_pos rfl]
      obtain ⟨i, e, he, he1, hmin, hlast, heq⟩ := BidirMap.remove_by_first_found hc
      refine ⟨i, e, m.cont.getLast?.getD e, he, he1, hmin, hlast, ?_, ?_⟩
      · rw [heq, swap_remove_some m.cont i _ hlast]
      · rw [heq]
        simpa using swap_remove_length m.cont i e he
    | false =>
      rw [if_neg Bool.false_ne_true]
      exact BidirMap.remove_by_first_not_found hc
  · cases hc : m.contains_second_key k2 with
    | true =>
      rw [if_pos rfl]
      obtain ⟨i, e, he, he2, hmin, hlast, heq⟩ := BidirMap.remove_by_second_found hc
      refine ⟨i, e, m.cont.getLast?.getD e, he, he2, hmin, hlast, ?_, ?_⟩
      · rw [heq, swap_remove_some m.cont i _ hlast]
      · rw [heq]
        simpa using swap_remove_length m.cont i e he
    | false =>
      rw [if_neg Bool.false_ne_true]
      exact BidirMap.remove_by_second_not_found hc

/-- Claim C6: indexing with a `ByFirst`-tagged key returns exactly what
`get_by_first` returns when the key is present, and on an absent key it is a
panic carrying the fixed message "no entry found for first key/value";
symmetrically for `BySecond` with "no entry found for second key/value"; the
by-value and by-reference `Index` impls behave identically. -/
theorem claim6_index_sugar {A : Type u} {B : Type v}
    [DecidableEq A] [DecidableEq B] (m : BidirMap A B) (k1 : A) (k2 : B) :
    (∀ v : B, m.index_by_first ⟨k1⟩ = Except.ok v ↔ m.get_by_first k1 = some v) ∧
    (m.index_by_first ⟨k1⟩ = Except.error "no entry found for first key/value" ↔
      m.contains_first_key k1 = false) ∧
    (∀ v : A, m.index_by_second ⟨k2⟩ = Except.ok v ↔ m.get_by_second k2 = some v) ∧
    (m.index_by_second ⟨k2⟩ = Except.error "no entry found for second key/value" ↔
      m.contains_second_key k2 = false) ∧
    m.index_by_first_ref ⟨k1⟩ = m.index_by_first ⟨k1⟩ ∧
    m.index_by_second_ref ⟨k2⟩ = m.index_by_second ⟨k2⟩ := by
  refine ⟨?_, ?_, ?_, ?_, rfl, rfl⟩
  · intro v
    cases hg : m.get_by_first k1 <;> simp [BidirMap.index_by_first, expect, hg]
  · rw [← BidirMap.get_by_first_eq_none_iff]
    cases hg : m.get_by_first k1 <;> simp [BidirMap.index_by_first, expect, hg]
  · intro v
    cases hg : m.get_by_second k2 <;> simp [BidirMap.index_by_second, expect, hg]
  · rw [← BidirMap.get_by_second_eq_none_iff]
    cases hg : m.get_by_second k2 <;> simp [BidirMap.index_by_second, expect, hg]

/-- Claim C7: over any sequence of inserts and removals applied to an
initially empty map, `len()` equals the number of inserts minus the number of
removals that returned a pair, counting insert-collision displacements
together with successful explicit removals. -/
theorem claim7_len_bookkeeping {A : Type u} {B : Type v}
    [DecidableEq A] [DecidableEq B] (ops : List (Op A B)) :
    (Op.run_ops (BidirMap.new : BidirMap A B) ops).2.2 ≤
      (Op.run_ops (BidirMap.new : BidirMap A B) ops).2.1 ∧
    (Op.run_ops (BidirMap.new : BidirMap A B) ops).1.len =
      (Op.run_ops (BidirMap.new : BidirMap A B) ops).2.1 -
        (Op.run_ops (BidirMap.new : BidirMap A B) ops).2.2 := by
  have h := run_ops_invariant ops (BidirMap.new : BidirMap A B)
  have h0 : (BidirMap.new : BidirMap A B).len = 0 := rfl
  omega

/-- Claim C8: collecting `iter()` and rebuilding through the bulk
`FromIterator` path yields a map equal to the original, and two maps are
equal exactly when they hold the same entries in the same order. -/
theorem claim8_iter_round_trip {A : Type u} {B : Type v} :
    (∀ m : BidirMap A B, BidirMap.from_iter m.iter = m) ∧
    (∀ m1 m2 : BidirMap A B, m1 = m2 ↔ m1.iter = m2.iter) := by
  constructor
  · intro m
    rfl
  · intro m1 m2
    constructor
    · intro h
      rw [h]
    · intro h
      cases m1
      cases m2
      simpa [BidirMap.iter] using h

/-- Claim C10: `remove_by_first(key)` returns `None` exactly when
`contains_first_key(key)` is false, and in that case the backing sequence is
left completely unchanged; symmetrically for `remove_by_second` and
`contains_second_key`. -/
theorem claim10_remove_absent_noop {A : Type u} {B : Type v}
    [DecidableEq A] [DecidableEq B] (m : BidirMap A B) (k1 : A) (k2 : B) :
    ((m.remove_by_first k1).1 = none ↔ m.contains_first_key k1 = false) ∧
    ((m.remove_by_first k1).1 = none → (m.remove_by_first k1).2 = m) ∧
    ((m.remove_by_second k2).1 = none ↔ m.contains_second_key k2 = false) ∧
    ((m.remove_by_second k2).1 = none → (m.remove_by_second k2).2 = m) := by
  refine ⟨?_, ?_, ?_, ?_⟩
  · cases hc : m.contains_first_key k1 with
    | false => rw [BidirMap.remove_by_first_not_found hc]; simp
    | true =>
      obtain ⟨e, hfst, _, _, _⟩ := BidirMap.remove_by_first_perm hc
      simp [hfst]
  · intro h
    cases hc : m.contains_first_key k1 with
    | false => rw [BidirMap.remove_by_first_not_found hc]
    | true =>
      obtain ⟨e, hfst, _, _, _⟩ := BidirMap.remove_by_first_perm hc
      rw [hfst] at h
      cases h
  · cases hc : m.contains_second_key k2 with
    | false => rw [BidirMap.remove_by_second_not_found hc]; simp
    | true =>
      obtain ⟨e, hfst, _, _, _⟩ := BidirMap.remove_by_second_perm hc
      simp [hfst]
  · intro h
    cases hc : m.contains_second_key k2 with
    | false => rw [BidirMap.remove_by_second_not_found hc]
    | true =>
      obtain ⟨e, hfst, _, _, _⟩ := BidirMap.remove_by_second_perm hc
      rw [hfst] at h
      cases h

/-- Witness for claim C10 at a concrete map and absent keys: removal with an
absent key leaves the map unchanged on both sides. -/
theorem claim10_remove_absent_noop_witness :
    ((⟨[(1, 10)]⟩ : BidirMap Nat Nat).remove_by_first 5).2 = (⟨[(1, 10)]⟩ : BidirMap Nat Nat) ∧
    ((⟨[(1, 10)]⟩ : BidirMap Nat Nat).remove_by_second 7).2 = (⟨[(1, 10)]⟩ : BidirMap Nat Nat) :=
  ⟨(claim10_remove_absent_noop ⟨[(1, 10)]⟩ 5 7).2.1 (by decide),
   (claim10_remove_absent_noop ⟨[(1, 10)]⟩ 5 7).2.2.2 (by decide)⟩

/-- Claim C2 (amended): for every map reachable from the empty map by a
sequence of `insert` operations, at most one entry has a `first` value equal
to any given queried value.  The second-side analogue of this uniqueness
claim is refuted by `claim2_counterexample`: a double-collision insert
leaves two entries with equal `second` values. -/
theorem claim2_first_side_uniqueness {A : Type u} {B : Type v}
    [DecidableEq A] [DecidableEq B] (l : List (A × B)) (a : A) :
    (BidirMap.insert_all l).cont.countP (fun e => e.1 == a) ≤ 1 := by
  have h0 : ∀ b : A, (BidirMap.new : BidirMap A B).cont.countP (fun e => e.1 == b) ≤ 1 := by
    intro b
    simp [BidirMap.new]
  simpa [BidirMap.insert_all] using
    BidirMap.insert_all_first_unique_aux l BidirMap.new h0 a

/-- Counterexample to claim C2 as stated: the map built by
`insert(1,10); insert(2,20); insert(1,20)` — reachable from empty purely by
inserts — holds the two entries `(2,20)` and `(1,20)`, whose `second` values
are both `20`, so second-side uniqueness fails. -/
theorem claim2_counterexample :
    (BidirMap.insert_all [(1, 10), (2, 20), (1, 20)] : BidirMap Nat Nat).cont =
      [(2, 20), (1, 20)] ∧
    decide ((BidirMap.insert_all [(1, 10), (2, 20), (1, 20)] : BidirMap Nat Nat).cont.countP
      (fun e => e.2 == 20) ≤ 1) = false := by
  exact ⟨by decide, by decide⟩

/-- Claim C3: in a map whose entries are uniquely identified by their `first`
values, inserting a pair that first-collides with entry `e1` and
second-collides with a different entry `e2` removes only `e1` (returning it
as the displaced pair) and leaves `e2` in place, so afterwards at least two
entries — `e2` and the new pair — have `second` value equal to the incoming
second. -/
theorem claim3_double_collision {A : Type u} {B : Type v}
    [DecidableEq A] [DecidableEq B] (m : BidirMap A B) (e1 e2 : A × B) (k2 : B)
    (h1 : e1 ∈ m.cont) (h2 : e2 ∈ m.cont) (hne : e1 ≠ e2)
    (huniq : ∀ e ∈ m.cont, e.1 = e1.1 → e = e1)
    (hk2 : e2.2 = k2) :
    (m.insert e1.1 k2).1 = some e1 ∧
    e2 ∈ (m.insert e1.1 k2).2.cont ∧
    List.Perm (e1 :: (m.insert e1.1 k2).2.cont) (m.cont ++ [(e1.1, k2)]) ∧
    2 ≤ (m.insert e1.1 k2).2.cont.countP (fun e => e.2 == k2) := by
  have hc1 : m.contains_first_key e1.1 = true :=
    (BidirMap.contains_first_key_iff m e1.1).mpr ⟨e1, h1, rfl⟩
  obtain ⟨e, hfst, hmem, he1, hperm⟩ := BidirMap.remove_by_first_perm hc1
  have hee : e = e1 := huniq e hmem he1
  subst hee
  have hins1 : (m.insert e.1 k2).1 = (m.remove_by_first e.1).1 := by
    simp [BidirMap.insert, BidirMap.insert_aux, hc1]
  have hins2 : (m.insert e.1 k2).2.cont = (m.remove_by_first e.1).2.cont ++ [(e.1, k2)] := by
    simp [BidirMap.insert, BidirMap.insert_aux, hc1]
  have he2mem : e2 ∈ (m.remove_by_first e.1).2.cont := by
    have hin : e2 ∈ e :: (m.remove_by_first e.1).2.cont := hperm.symm.subset h2
    rcases List.mem_cons.mp hin with heq2 | hmem2
    · exact absurd heq2.symm hne
    · exact hmem2
  refine ⟨by rw [hins1]; exact hfst, ?_, ?_, ?_⟩
  · rw [hins2]
    exact List.mem_append_left _ he2mem
  · rw [hins2]
    show List.Perm ((e :: (m.remove_by_first e.1).2.cont) ++ [(e.1, k2)]) (m.cont ++ [(e.1, k2)])
    exact hperm.append_right _
  · rw [hins2, List.countP_append]
    have hone : ([(e.1, k2)] : List (A × B)).countP (fun x => x.2 == k2) = 1 := by simp
    have hcnt : 0 < (m.remove_by_first e.1).2.cont.countP (fun x => x.2 == k2) :=
      List.countP_pos_iff.mpr ⟨e2, he2mem, by simp [hk2]⟩
    rw [hone]
    omega

/-- Witness for claim C3 at the example shape used by the spec: in the map
`[(1,10),(2,20)]`, inserting `(1,20)` displaces `(1,10)` and leaves `(2,20)`
in place, so two entries end with `second = 20`. -/
theorem claim3_double_collision_witness :
    ((⟨[(1, 10), (2, 20)]⟩ : BidirMap Nat Nat).insert 1 20).1 = some (1, 10) ∧
    (2, 20) ∈ ((⟨[(1, 10), (2, 20)]⟩ : BidirMap Nat Nat).insert 1 20).2.cont ∧
    List.Perm ((1, 10) :: ((⟨[(1, 10), (2, 20)]⟩ : BidirMap Nat Nat).insert 1 20).2.cont)
      (([(1, 10), (2, 20)] : List (Nat × Nat)) ++ [(1, 20)]) ∧
    2 ≤ ((⟨[(1, 10), (2, 20)]⟩ : BidirMap Nat Nat).insert 1 20).2.cont.countP
      (fun e => e.2 == 20) :=
  claim3_double_collision ⟨[(1, 10), (2, 20)]⟩ (1, 10) (2, 20) 20 (by decide) (by decide)
    (by decide) (by decide) (by decide)

/-- Claim C4 (amended): immediately after `insert(k1, k2)`, both
`get_by_first(k1) = Some(k2)` and `get_by_second(k2) = Some(k1)` hold,
provided at most one existing entry collided with the incoming pair on
either side.  Without that restriction the second-side lookup can miss
(see `claim4_counterexample`). -/
theorem claim4_insert_then_get {A : Type u} {B : Type v}
    [DecidableEq A] [DecidableEq B] (m : BidirMap A B) (k1 : A) (k2 : B)
    (h : m.cont.countP (fun e => e.1 == k1 || e.2 == k2) ≤ 1) :
    (m.insert k1 k2).2.get_by_first k1 = some k2 ∧
    (m.insert k1 k2).2.get_by_second k2 = some k1 := by
  obtain ⟨rest, hrest, hprop⟩ := BidirMap.insert_rest_clean m k1 k2 h
  constructor
  · simp only [BidirMap.get_by_first, hrest]
    exact BidirMap.find_by_first_push rest k1 k2 (fun e he => (hprop e he).1)
  · simp only [BidirMap.get_by_second, hrest]
    exact BidirMap.find_by_second_push rest k1 k2 (fun e he => (hprop e he).2)

/-- Witness for claim C4: in the map `[(1,10)]`, inserting `(1,20)` (which
displaces the single collider `(1,10)`) leaves both fresh lookups
succeeding. -/
theorem claim4_insert_then_get_witness :
    ((⟨[(1, 10)]⟩ : BidirMap Nat Nat).insert 1 20).2.get_by_first 1 = some 20 ∧
    ((⟨[(1, 10)]⟩ : BidirMap Nat Nat).insert 1 20).2.get_by_second 20 = some 1 :=
  claim4_insert_then_get ⟨[(1, 10)]⟩ 1 20 (by decide)

/-- Counterexample to claim C4 as stated: starting from the insert-reachable
map `[(1,10),(2,20)]`, the double-collision insert of `(1,20)` leaves
`get_by_second(20)` returning `Some(2)` — the surviving entry `(2,20)` —
rather than `Some(1)` for the freshly inserted pair. -/
theorem claim4_counterexample :
    ((BidirMap.insert_all [(1, 10), (2, 20)] : BidirMap Nat Nat).insert 1 20).2.get_by_second 20 =
      some 2 ∧
    decide (((BidirMap.insert_all [(1, 10), (2, 20)] : BidirMap Nat Nat).insert 1
      20).2.get_by_second 20 = some 1) = false := by
  exact ⟨by decide, by decide⟩

/-- Claim C9 (amended): `remove_by_first` (and symmetrically
`remove_by_second`) is idempotent in effect — a second call with the same key
returns `None` — provided at most one entry matches the key on the queried
side.  Without that proviso a second call can succeed again (see
`claim9_counterexample`). -/
theorem claim9_remove_idempotent {A : Type u} {B : Type v}
    [DecidableEq A] [DecidableEq B] (m : BidirMap A B) (k1 : A) (k2 : B)
    (h1 : m.cont.countP (fun e => e.1 == k1) ≤ 1)
    (h2 : m.cont.countP (fun e => e.2 == k2) ≤ 1) :
    ((m.remove_by_first k1).2.remove_by_first k1).1 = none ∧
    ((m.remove_by_second k2).2.remove_by_second k2).1 = none := by
  constructor
  · cases hc : m.contains_first_key k1 with
    | false =>
      have hn := BidirMap.remove_by_first_not_found hc
      rw [hn]
      show (m.remove_by_first k1).1 = none
      rw [hn]
    | true =>
      obtain ⟨e, hfst, hmem, he1, hperm⟩ := BidirMap.remove_by_first_perm hc
      have hcount := hperm.countP_eq (fun e => e.1 == k1)
      rw [List.countP_cons] at hcount
      have hpe : (e.1 == k1) = true := by simp [he1]
      rw [hpe, if_pos rfl] at hcount
      have h0 : (m.remove_by_first k1).2.cont.countP (fun e => e.1 == k1) = 0 := by omega
      have hcf : (m.remove_by_first k1).2.contains_first_key k1 = false := by
        cases hcc : (m.remove_by_first k1).2.contains_first_key k1 with
        | false => rfl
        | true =>
          obtain ⟨x, hx, hx1⟩ := (BidirMap.contains_first_key_iff _ _).mp hcc
          have := List.countP_eq_zero.mp h0 x hx
          simp [hx1] at this
      rw [BidirMap.remove_by_first_not_found hcf]
  · cases hc : m.contains_second_key k2 with
    | false =>
      have hn := BidirMap.remove_by_second_not_found hc
      rw [hn]
      show (m.remove_by_second k2).1 = none
      rw [hn]
    | true =>
      obtain ⟨e, hfst, hmem, he2, hperm⟩ := BidirMap.remove_by_second_perm hc
      have hcount := hperm.countP_eq (fun e => e.2 == k2)
      rw [List.countP_cons] at hcount
      have hpe : (e.2 == k2) = true := by simp [he2]
      rw [hpe, if_pos rfl] at hcount
      have h0 : (m.remove_by_second k2).2.cont.countP (fun e => e.2 == k2) = 0 := by omega
      have hcf : (m.remove_by_second k2).2.contains_second_key k2 = false := by
        cases hcc : (m.remove_by_second k2).2.contains_second_key k2 with
        | false => rfl
        | true =>
          obtain ⟨x, hx, hx2⟩ := (BidirMap.contains_second_key_iff _ _).mp hcc
          have := List.countP_eq_zero.mp h0 x hx
          simp [hx2] at this
      rw [BidirMap.remove_by_second_not_found hcf]

/-- Witness for claim C9 at the map `[(1,10)]`: after removing by either
key of either side, an immediate second removal with the same key returns nothing. -/
theorem claim9_remove_idempotent_witness :
    (((⟨[(1, 10)]⟩ : BidirMap Nat Nat).remove_by_first 1).2.remove_by_first 1).1 = none ∧
    (((⟨[(1, 10)]⟩ : BidirMap Nat Nat).remove_by_second 10).2.remove_by_second 10).1 = none :=
  claim9_remove_idempotent ⟨[(1, 10)]⟩ 1 10 (by decide) (by decide)

/-- Counterexample to claim C9 as stated: on the insert-reachable map
`[(2,20),(1,20)]` (built by `insert(1,10); insert(2,20); insert(1,20)`),
`remove_by_second(20)` succeeds returning `(2,20)`, and an immediate second
call with the same key succeeds *again*, returning `(1,20)` instead of
`None`. -/
theorem claim9_counterexample :
    ((BidirMap.insert_all [(1, 10), (2, 20), (1, 20)] : BidirMap Nat Nat).remove_by_second 20).1 =
      some (2, 20) ∧
    (((BidirMap.insert_all [(1, 10), (2, 20), (1, 20)] : BidirMap Nat Nat).remove_by_second
      20).2.remove_by_second 20).1 = some (1, 20) ∧
    decide ((((BidirMap.insert_all [(1, 10), (2, 20), (1, 20)] : BidirMap Nat Nat).remove_by_second
      20).2.remove_by_second 20).1 = none) = false := by
  exact ⟨by decide, by decide, by decide⟩
